import Mathlib

/-
Verification development for the rooting-and-tracing protocol of
examples/tracing.cpp (SpiderMonkey embedding examples).

The embedding models GC-managed values and native pointers by natural
numbers.  A `JS::Heap<JS::Value>` slot is identified by the value it
holds; `JS::TraceEdge(trc, &slot, label)` is modelled as emitting an
`Edge` record carrying the slot and its debug label.  Nullable native
pointers (`SafeBox*` stored in reserved slots via `JS::PrivateValue`)
are modelled as `Option Nat`, with `none` standing for `nullptr`; a
total function `deref : Nat → SafeBox` models dereferencing a valid
non-null pointer.

Parts of the system that live outside this repository (the collector
itself: the stack-root registry internals, persistent-root
registration, marking, relocation, finalization scheduling) are
modelled from the spec; each such definition says so in its doc
comment.
-/

/-- An edge visit performed through the generic trace entry point
`JS::TraceEdge(trc, slotAddress, debugLabel)`: the slot's content and
the debug label passed at the call site. -/
structure Edge where
  slot : Nat
  label : String
deriving DecidableEq, Repr

/-- Embedding of `struct SafeBox` (tracing.cpp lines 20–40): a
`JS::Heap<JS::Value> stashed` field and a
`std::vector<JS::Heap<JS::Value>> container` field. -/
structure SafeBox where
  stashed : Nat
  container : List Nat
deriving DecidableEq, Repr

/-- Embedding of `SafeBox::trace` (tracing.cpp lines 32–39): one
`JS::TraceEdge` call on `stashed` with label "stashed value", then one
`JS::TraceEdge` call per container element with label
"container value", in order.  The result is the list of edge visits
the method performs. -/
def SafeBox.trace (b : SafeBox) : List Edge :=
  Edge.mk b.stashed "stashed value" ::
    b.container.map (fun v => Edge.mk v "container value")

/-- The HeapSlot fields of a `SafeBox` aggregate: the stashed slot and
every container element. -/
def SafeBox.heapSlots (b : SafeBox) : List Nat :=
  b.stashed :: b.container

/-- Embedding of `struct CustomObject` (tracing.cpp lines 155–201):
the two reserved slots `OwnedBoxSlot` and `UnownedBoxSlot` each hold a
nullable `SafeBox*` (stored as a `JS::PrivateValue`); `ownedBox()` and
`unownedBox()` read them back via `JS::GetMaybePtrFromReservedSlot`. -/
structure CustomObject where
  owned : Option Nat
  unowned : Option Nat
deriving DecidableEq, Repr

/-- Embedding of `CustomObject::trace` (tracing.cpp lines 218–229):
fetch `ownedBox()`; if non-null, trace it; fetch `unownedBox()`; if
non-null, trace it.  `deref` models dereferencing a valid non-null
`SafeBox*`. -/
def CustomObject.trace (deref : Nat → SafeBox) (o : CustomObject) : List Edge :=
  (match o.owned with
   | some p => (deref p).trace
   | none => []) ++
  (match o.unowned with
   | some p => (deref p).trace
   | none => [])

/-- Embedding of `CustomObject::finalize` (tracing.cpp lines 213–216)
as its effect on the set of live native `SafeBox` allocations:
`delete ownedBox()` removes the owned box's address from the live set
(deleting a null pointer is a no-op in C++), and the unowned box is
deliberately not deleted. -/
def CustomObject.finalize (boxes : List Nat) (o : CustomObject) : List Nat :=
  match o.owned with
  | some p => boxes.erase p
  | none => boxes

/-- Embedding of the out-of-line tracing policy interface
(`JS::GCPolicy`): `trace` forwards the tracer and debug name and
yields the edge visits performed, `needsSweep` reports whether the
referent is gone, `isValid` checks the value. -/
structure GCPolicy (T : Type) where
  trace : T → String → List Edge
  needsSweep : T → Bool
  isValid : T → Bool

/-- Embedding of `JS::GCPolicy<std::shared_ptr<T>>` (tracing.cpp lines
64–83).  A `std::shared_ptr<T>` is modelled by its current target, an
`Option T` with `none` for a null target.  Each method checks
`tp->get()`/`t.get()` and forwards to `GCPolicy<T>` when the target is
non-null; with no current target, `trace` performs no edge visits,
`needsSweep` returns `false` and `isValid` returns `true`. -/
def sharedPtrPolicy {T : Type} (P : GCPolicy T) : GCPolicy (Option T) where
  trace tp name :=
    match tp with
    | some target => P.trace target name
    | none => []
  needsSweep tp :=
    match tp with
    | some target => P.needsSweep target
    | none => false
  isValid t :=
    match t with
    | some target => P.isValid target
    | none => true

/-- Modelled from the spec: the Tracer's per-pass marking state is the
set of slot addresses already visited; `visitEdge` marks a slot,
leaving the state unchanged when the slot is already marked. -/
def visitEdge (marks : List Nat) (slot : Nat) : List Nat :=
  if slot ∈ marks then marks else slot :: marks

/-- Modelled from the spec: one trace pass folds `visitEdge` over the
sequence of edge visits performed by the trace hooks. -/
def markPass (marks : List Nat) (edges : List Edge) : List Nat :=
  List.foldl (fun m e => visitEdge m e.slot) marks edges

theorem visitEdge_of_mem {marks : List Nat} {s : Nat} (h : s ∈ marks) :
    visitEdge marks s = marks := by
  simp [visitEdge, h]

theorem mem_visitEdge_self (marks : List Nat) (s : Nat) :
    s ∈ visitEdge marks s := by
  by_cases h : s ∈ marks <;> simp [visitEdge, h]

theorem mem_visitEdge_of_mem {marks : List Nat} {a : Nat} (s : Nat)
    (h : a ∈ marks) : a ∈ visitEdge marks s := by
  by_cases hs : s ∈ marks <;> simp [visitEdge, hs, h]

theorem mem_markPass_of_mem {marks : List Nat} {a : Nat}
    (l : List Edge) (h : a ∈ marks) : a ∈ markPass marks l := by
  induction l generalizing marks with
  | nil => exact h
  | cons e t ih =>
    exact ih (mem_visitEdge_of_mem e.slot h)

theorem slot_mem_markPass {e : Edge} :
    ∀ (marks : List Nat) (l : List Edge), e ∈ l → e.slot ∈ markPass marks l := by
  intro marks l
  induction l generalizing marks with
  | nil => intro h; cases h
  | cons x t ih =>
    intro h
    rcases List.mem_cons.mp h with h1 | h1
    · rw [h1]
      exact mem_markPass_of_mem t (mem_visitEdge_self marks x.slot)
    · exact ih (visitEdge marks x.slot) h1

theorem markPass_of_all_marked {marks : List Nat} {l : List Edge}
    (h : ∀ e ∈ l, e.slot ∈ marks) : markPass marks l = marks := by
  induction l with
  | nil => rfl
  | cons x t ih =>
    have hx : visitEdge marks x.slot = marks :=
      visitEdge_of_mem (h x (List.mem_cons_self x t))
    show markPass (visitEdge marks x.slot) t = marks
    rw [hx]
    exact ih (fun e he => h e (List.mem_cons_of_mem x he))

theorem markPass_append (marks : List Nat) (l₁ l₂ : List Edge) :
    markPass marks (l₁ ++ l₂) = markPass (markPass marks l₁) l₂ := by
  simp [markPass, List.foldl_append]

theorem markPass_self_append (marks : List Nat) (l : List Edge) :
    markPass marks (l ++ l) = markPass marks l := by
  rw [markPass_append]
  exact markPass_of_all_marked (fun e he => slot_mem_markPass marks l he)

namespace StackRootRegistry

/-- Modelled from the spec: the per-context StackRootRegistry is an
intrusive LIFO list of the active stack-root nodes, head = most
recently constructed root.  Nodes are identified by naturals. -/
def Registry : Type := List Nat

/-- Modelled from the spec: `push` prepends the node in O(1) at
`RootedSlot` construction. -/
def push (reg : List Nat) (n : Nat) : List Nat := n :: reg

/-- Modelled from the spec: `pop` removes the head at `RootedSlot`
destruction; popping a node that is not the current head (or popping
from an empty registry) is a protocol violation, detected and reported
as `none` (the debug assertion/abort) instead of being performed. -/
def pop (reg : List Nat) (n : Nat) : Option (List Nat) :=
  match reg with
  | [] => none
  | h :: t => if n = h then some t else none

/-- Construct a sequence of stack roots in order: fold `push` over the
construction sequence. -/
def pushAll (reg : List Nat) (ns : List Nat) : List Nat :=
  List.foldl push reg ns

/-- Destroy a sequence of stack roots in the given order, aborting
(`none`) on the first protocol violation. -/
def popSeq (reg : List Nat) : List Nat → Option (List Nat)
  | [] => some reg
  | n :: rest =>
    match pop reg n with
    | some t => popSeq t rest
    | none => none

theorem pushAll_eq (reg : List Nat) (ns : List Nat) :
    pushAll reg ns = ns.reverse ++ reg := by
  induction ns generalizing reg with
  | nil => rfl
  | cons n t ih =>
    show pushAll (n :: reg) t = (n :: t).reverse ++ reg
    rw [ih (n :: reg)]
    simp

theorem popSeq_append (l reg : List Nat) :
    popSeq (l ++ reg) l = some reg := by
  induction l with
  | nil => rfl
  | cons x t ih =>
    show popSeq (x :: (t ++ reg)) (x :: t) = some reg
    simp only [popSeq, pop, if_pos rfl]
    exact ih

end StackRootRegistry

/-- Modelled from the spec: the collector-visible world for class-hook
dispatch.  `objs` are the live managed `CustomObject`s (object id
paired with its reserved-slot contents), `boxes` the addresses of live
native `SafeBox` allocations, `finLog` the log of object ids whose
finalize hook has run. -/
structure GCWorld where
  objs : List (Nat × CustomObject)
  boxes : List Nat
  finLog : List Nat
deriving DecidableEq, Repr

/-- Modelled from the spec: one collection pass with foreground
finalization.  Objects the tracer cannot reach are removed from the
world; for each of them the `CustomObject::finalize` hook (embedded
above from tracing.cpp lines 213–216) runs exactly at this pass, and
the run is logged. -/
def collectWorld (reachable : Nat → Bool) (w : GCWorld) : GCWorld :=
  { objs := w.objs.filter (fun po => reachable po.1)
    boxes := List.foldl (fun bs po => CustomObject.finalize bs po.2) w.boxes
      (w.objs.filter (fun po => !reachable po.1))
    finLog := w.finLog ++ (w.objs.filter (fun po => !reachable po.1)).map Prod.fst }

theorem mem_finalize_of_mem {bs : List Nat} {o : CustomObject} {x : Nat}
    (h : x ∈ CustomObject.finalize bs o) : x ∈ bs := by
  cases ho : o.owned with
  | none => rw [CustomObject.finalize, ho] at h; exact h
  | some p => rw [CustomObject.finalize, ho] at h; exact List.mem_of_mem_erase h

theorem finalize_count_le (bs : List Nat) (o : CustomObject) (x : Nat) :
    (CustomObject.finalize bs o).count x ≤ bs.count x := by
  cases ho : o.owned with
  | none => rw [CustomObject.finalize, ho]
  | some p =>
    rw [CustomObject.finalize, ho]
    exact (bs.erase_sublist p).count_le x

theorem foldl_finalize_not_mem {x : Nat} :
    ∀ (l : List (Nat × CustomObject)) (bs : List Nat), x ∉ bs →
      x ∉ List.foldl (fun b po => CustomObject.finalize b po.2) bs l := by
  intro l
  induction l with
  | nil => intro bs h; exact h
  | cons q t ih =>
    intro bs h
    exact ih (CustomObject.finalize bs q.2) (fun hm => h (mem_finalize_of_mem hm))

theorem foldl_finalize_kills {b : Nat} :
    ∀ (l : List (Nat × CustomObject)) (bs : List Nat),
      (∃ q ∈ l, q.2.owned = some b) → bs.count b ≤ 1 →
      b ∉ List.foldl (fun bsa po => CustomObject.finalize bsa po.2) bs l := by
  intro l
  induction l with
  | nil =>
    intro bs hex
    rcases hex with ⟨q, hq, _⟩
    cases hq
  | cons q t ih =>
    intro bs hex hcount
    by_cases hq : q.2.owned = some b
    · have hz : (CustomObject.finalize bs q.2).count b = 0 := by
        have he : CustomObject.finalize bs q.2 = bs.erase b := by
          rw [CustomObject.finalize, hq]
        rw [he]
        have := bs.count_erase_self b
        omega
      have hnot : b ∉ CustomObject.finalize bs q.2 := by
        rw [← List.count_eq_zero]
        exact hz
      exact foldl_finalize_not_mem t (CustomObject.finalize bs q.2) hnot
    · rcases hex with ⟨q2, hq2, hown⟩
      rcases List.mem_cons.mp hq2 with h1 | h1
      · exact absurd (h1 ▸ hown) hq
      · exact ih (CustomObject.finalize bs q.2) ⟨q2, h1, hown⟩
          (le_trans (finalize_count_le bs q.2 b) hcount)

theorem foldl_finalize_keeps {b : Nat} :
    ∀ (l : List (Nat × CustomObject)) (bs : List Nat), b ∈ bs →
      (∀ q ∈ l, q.2.owned ≠ some b) →
      b ∈ List.foldl (fun bsa po => CustomObject.finalize bsa po.2) bs l := by
  intro l
  induction l with
  | nil => intro bs h _; exact h
  | cons q t ih =>
    intro bs h hall
    have hstep : b ∈ CustomObject.finalize bs q.2 := by
      cases ho : q.2.owned with
      | none => rw [CustomObject.finalize, ho]; exact h
      | some p =>
        rw [CustomObject.finalize, ho]
        have hne : p ≠ b := by
          intro he
          exact hall q (List.mem_cons_self q t) (he ▸ ho)
        exact (List.mem_erase_of_ne (fun he => hne he.symm)).mpr h
    exact ih (CustomObject.finalize bs q.2) hstep
      (fun q2 hq2 => hall q2 (List.mem_cons_of_mem q hq2))

/-- Modelled from the spec: one expansion step of the marking
traversal — every already-marked object contributes its outgoing
edges, and newly discovered targets are appended. -/
def markStep (edges : Nat → List Nat) (m : List Nat) : List Nat :=
  m ++ ((m.map edges).flatten.filter (fun x => decide (x ∉ m)))

/-- Modelled from the spec: iterate the marking step a given number of
times starting from the root set. -/
def markN (edges : Nat → List Nat) : Nat → List Nat → List Nat
  | 0, m => m
  | n + 1, m => markN edges n (markStep edges m)

/-- Modelled from the spec: the set of objects the collector can reach
from the registered roots by following edges for `fuel` steps. -/
def reachableSet (edges : Nat → List Nat) (roots : List Nat) (fuel : Nat) : List Nat :=
  markN edges fuel roots

/-- Modelled from the spec: collector state for persistent roots —
the live managed objects and the permanently registered root set. -/
structure RootedCollector where
  objs : List Nat
  roots : List Nat
deriving DecidableEq, Repr

/-- Modelled from the spec: one forced collection pass reclaims every
object not reachable from the registered roots and keeps the rest. -/
def collectPass (edges : Nat → List Nat) (c : RootedCollector) : RootedCollector :=
  { objs := c.objs.filter (fun o => decide (o ∈ reachableSet edges c.roots c.objs.length))
    roots := c.roots }

/-- Modelled from the spec: an arbitrary number of forced collection
passes. -/
def collectIter (edges : Nat → List Nat) (c : RootedCollector) : Nat → RootedCollector
  | 0 => c
  | n + 1 => collectIter edges (collectPass edges c) n

/-- Modelled from the spec: `PersistentRooted::reset()` deregisters
the root from the collector's permanent root set. -/
def resetRoot (r : Nat) (c : RootedCollector) : RootedCollector :=
  { objs := c.objs, roots := c.roots.erase r }

theorem mem_markStep_of_mem {edges : Nat → List Nat} {m : List Nat} {a : Nat}
    (h : a ∈ m) : a ∈ markStep edges m :=
  List.mem_append_left _ h

theorem mem_markN_of_mem {edges : Nat → List Nat} {a : Nat} :
    ∀ (n : Nat) (m : List Nat), a ∈ m → a ∈ markN edges n m := by
  intro n
  induction n with
  | zero => intro m h; exact h
  | succ k ih => intro m h; exact ih (markStep edges m) (mem_markStep_of_mem h)

theorem mem_reachableSet_of_mem_roots {edges : Nat → List Nat} {roots : List Nat}
    {r : Nat} (fuel : Nat) (h : r ∈ roots) : r ∈ reachableSet edges roots fuel :=
  mem_markN_of_mem fuel roots h

theorem collectPass_roots (edges : Nat → List Nat) (c : RootedCollector) :
    (collectPass edges c).roots = c.roots := rfl

theorem collectIter_roots (edges : Nat → List Nat) :
    ∀ (n : Nat) (c : RootedCollector), (collectIter edges c n).roots = c.roots := by
  intro n
  induction n with
  | zero => intro c; rfl
  | succ k ih => intro c; exact ih (collectPass edges c)

theorem mem_objs_collectPass {edges : Nat → List Nat} {c : RootedCollector} {r : Nat}
    (hobj : r ∈ c.objs) (hroot : r ∈ c.roots) : r ∈ (collectPass edges c).objs := by
  simp only [collectPass, List.mem_filter, decide_eq_true_eq]
  exact ⟨hobj, mem_reachableSet_of_mem_roots c.objs.length hroot⟩

theorem mem_objs_collectIter {edges : Nat → List Nat} {r : Nat} :
    ∀ (n : Nat) (c : RootedCollector), r ∈ c.objs → r ∈ c.roots →
      r ∈ (collectIter edges c n).objs := by
  intro n
  induction n with
  | zero => intro c hobj _; exact hobj
  | succ k ih =>
    intro c hobj hroot
    exact ih (collectPass edges c) (mem_objs_collectPass hobj hroot) hroot

/-- Modelled from the spec and the static/boilerplate structure of
tracing.cpp: the observable lifecycle events of the process-wide
`globalPtrSafe` root.  Static construction of the global happens
before the engine starts; `GlobalRootExample` (tracing.cpp lines
110–125) calls `init` after startup and `reset` before returning, and
engine shutdown happens after all examples have run. -/
inductive TraceEvent where
  | declareGlobal
  | engineStartup
  | rootInit
  | rootReset
  | engineShutdown
deriving DecidableEq, Repr

/-- The event order of the program: static construction of
`globalPtrSafe`, engine startup in the boilerplate, then
`globalPtrSafe.init(cx, …)` and `globalPtrSafe.reset()` inside
`GlobalRootExample`, then engine shutdown. -/
def programTrace : List TraceEvent :=
  [TraceEvent.declareGlobal, TraceEvent.engineStartup, TraceEvent.rootInit,
   TraceEvent.rootReset, TraceEvent.engineShutdown]

/-- Modelled from the spec: whether the global persistent root is
registered with the collector after a sequence of events.  The default
constructor leaves it an empty unregistered placeholder; `init`
registers it; `reset` deregisters it. -/
def rootRegistered (es : List TraceEvent) : Bool :=
  List.foldl
    (fun s e =>
      match e with
      | TraceEvent.rootInit => true
      | TraceEvent.rootReset => false
      | _ => s)
    false es

/-- Modelled from the spec: the collector heap as a map from addresses
to logical object identities; resolving an address yields the logical
object stored there. -/
def resolveAddr (heap : List (Nat × Nat)) (a : Nat) : Option Nat :=
  (heap.find? (fun po => po.1 == a)).map (fun po => po.2)

/-- Modelled from the spec: a relocating (moving) pass moves each
object to a new address while preserving its logical identity. -/
def relocateHeap (f : Nat → Nat) (heap : List (Nat × Nat)) : List (Nat × Nat) :=
  heap.map (fun po => (f po.1, po.2))

/-- Modelled from the spec: after relocation the collector runs
`traceAll` over the root registry again, which rewrites the address
stored in every root through the relocation map. -/
def fixupRoots (f : Nat → Nat) (roots : List Nat) : List Nat :=
  roots.map f

theorem resolveAddr_relocate {f : Nat → Nat} (hinj : ∀ a b, f a = f b → a = b)
    (heap : List (Nat × Nat)) (a : Nat) :
    resolveAddr (relocateHeap f heap) (f a) = resolveAddr heap a := by
  induction heap with
  | nil => rfl
  | cons p t ih =>
    by_cases h : p.1 = a
    · simp [resolveAddr, relocateHeap, List.find?_cons, h]
    · have h2 : (f p.1 == f a) = false := by
        rw [beq_eq_false_iff_ne]
        intro he
        exact h (hinj p.1 a he)
      have h3 : (p.1 == a) = false := by
        rw [beq_eq_false_iff_ne]
        exact h
      simp only [resolveAddr, relocateHeap, List.map_cons, List.find?_cons, h2, h3] at *
      exact ih

theorem safeBox_trace_covers {b : SafeBox} {s : Nat} (hs : s ∈ b.heapSlots) :
    ∃ e ∈ SafeBox.trace b, e.slot = s := by
  rcases List.mem_cons.mp hs with h | h
  · exact ⟨Edge.mk b.stashed "stashed value", List.mem_cons_self _ _, h.symm⟩
  · exact ⟨Edge.mk s "container value",
      List.mem_cons_of_mem _
        (List.mem_map_of_mem (fun v => Edge.mk v "container value") h), rfl⟩

/-- Claim C1: pushing any sequence of stack roots into an empty
StackRootRegistry and then popping them in exactly the reverse order
leaves the registry empty; and popping any node that is not the
current head is detected as a protocol violation (`none`, the debug
assertion/abort) rather than silently performed. -/
theorem C1_registry_lifo (ns : List Nat) (n hd : Nat) (t : List Nat)
    (hne : n ≠ hd) :
    StackRootRegistry.popSeq (StackRootRegistry.pushAll [] ns) ns.reverse = some [] ∧
    StackRootRegistry.pop (hd :: t) n = none := by
  constructor
  · rw [StackRootRegistry.pushAll_eq]
    have h := StackRootRegistry.popSeq_append ns.reverse []
    simpa using h
  · simp [StackRootRegistry.pop, hne]

theorem C1_registry_lifo_witness :
    StackRootRegistry.popSeq (StackRootRegistry.pushAll [] [1, 2, 3]) [1, 2, 3].reverse = some [] ∧
    StackRootRegistry.pop [2, 9] 5 = none :=
  C1_registry_lifo [1, 2, 3] 5 2 [9] (by decide)

/-- Claim C2: for every CustomObject, the class trace hook visits, on
every trace pass, all HeapSlot edges reachable from the object's
private data of both the natively-owned box (OwnedBoxSlot) and the
natively-borrowed box (UnownedBoxSlot): every heap slot of each
non-null box — the stashed slot and every container element — appears
among the visited edges. -/
theorem C2_trace_covers_boxes (deref : Nat → SafeBox) (o : CustomObject) (p s : Nat)
    (hp : o.owned = some p ∨ o.unowned = some p)
    (hs : s ∈ SafeBox.heapSlots (deref p)) :
    ∃ e ∈ CustomObject.trace deref o, e.slot = s := by
  obtain ⟨e, he, hes⟩ := safeBox_trace_covers hs
  rcases hp with hp | hp
  · exact ⟨e, by simp only [CustomObject.trace, hp]; exact List.mem_append_left _ he, hes⟩
  · exact ⟨e, by simp only [CustomObject.trace, hp]; exact List.mem_append_right _ he, hes⟩

theorem C2_trace_covers_boxes_witness :
    ∃ e ∈ CustomObject.trace (fun _ => SafeBox.mk 7 [8, 9])
        (CustomObject.mk (some 0) (some 1)), e.slot = 8 :=
  C2_trace_covers_boxes (fun _ => SafeBox.mk 7 [8, 9])
    (CustomObject.mk (some 0) (some 1)) 0 8 (Or.inl rfl) (by decide)

/-- Claim C4: one call to SafeBox::trace on a box with a container of
size n performs exactly n + 1 edge visits through the generic trace
entry point: its visited slots are precisely the stashed HeapSlot
followed by each container element, so every HeapSlot field of the
aggregate is visited on every pass. -/
theorem C4_safebox_trace_exact (b : SafeBox) :
    (SafeBox.trace b).map Edge.slot = SafeBox.heapSlots b ∧
    (SafeBox.trace b).length = b.container.length + 1 := by
  constructor
  · have h : ∀ l : List Nat,
        (l.map (fun v => Edge.mk v "container value")).map Edge.slot = l := by
      intro l
      induction l with
      | nil => rfl
      | cons x t ih => simp only [List.map_cons, ih]
    simp only [SafeBox.trace, SafeBox.heapSlots, List.map_cons, h b.container]
  · simp [SafeBox.trace]

/-- Claim C5: the pass-through tracing policy for the shared-pointer
wrapper: with a null target, trace performs zero edge visits (and
never dereferences the target), needsSweep returns false, and isValid
returns true; with a present referent every operation forwards to the
wrapped type's policy. -/
theorem C5_sharedptr_policy (T : Type) (P : GCPolicy T) (t : T) (name : String) :
    (sharedPtrPolicy P).trace none name = [] ∧
    (sharedPtrPolicy P).needsSweep none = false ∧
    (sharedPtrPolicy P).isValid none = true ∧
    (sharedPtrPolicy P).trace (some t) name = P.trace t name ∧
    (sharedPtrPolicy P).needsSweep (some t) = P.needsSweep t ∧
    (sharedPtrPolicy P).isValid (some t) = P.isValid t :=
  ⟨rfl, rfl, rfl, rfl, rfl, rfl⟩

/-- Claim C9: edge visiting is idempotent within one trace pass:
visiting the same slot twice leaves the marking state equal to
visiting it once, both immediately and after further visits in
between, so a trace hook (such as CustomObject's) that reaches the
same aggregate through two different slots — or whose whole edge list
is replayed — leaves the marking state unchanged relative to visiting
each edge once. -/
theorem C9_visit_idempotent (marks : List Nat) (s : Nat) (deref : Nat → SafeBox)
    (o : CustomObject) :
    visitEdge (visitEdge marks s) s = visitEdge marks s ∧
    visitEdge (markPass (visitEdge marks s) (CustomObject.trace deref o)) s =
      markPass (visitEdge marks s) (CustomObject.trace deref o) ∧
    markPass marks (CustomObject.trace deref o ++ CustomObject.trace deref o) =
      markPass marks (CustomObject.trace deref o) :=
  ⟨visitEdge_of_mem (mem_visitEdge_self marks s),
   visitEdge_of_mem
     (mem_markPass_of_mem (CustomObject.trace deref o) (mem_visitEdge_self marks s)),
   markPass_self_append marks (CustomObject.trace deref o)⟩

/-- Claim C10: null reserved-slot contents are a safe state at the
public interface: the trace hook skips a null box, performing no edge
visits for it and never dereferencing null, and the finalize hook's
delete of a null owned box leaves the set of live native allocations
unchanged (a harmless no-op). -/
theorem C10_null_boxes_safe (deref : Nat → SafeBox) (boxes : List Nat)
    (o : CustomObject) (p : Nat) :
    (o.owned = none → CustomObject.finalize boxes o = boxes) ∧
    (o.owned = none → o.unowned = none → CustomObject.trace deref o = []) ∧
    (o.owned = none → o.unowned = some p →
      CustomObject.trace deref o = SafeBox.trace (deref p)) ∧
    (o.unowned = none → o.owned = some p →
      CustomObject.trace deref o = SafeBox.trace (deref p)) := by
  refine ⟨fun h1 => ?_, fun h1 h2 => ?_, fun h1 h2 => ?_, fun h1 h2 => ?_⟩
  · simp [CustomObject.finalize, h1]
  · simp [CustomObject.trace, h1, h2]
  · simp [CustomObject.trace, h1, h2]
  · simp [CustomObject.trace, h1, h2]

theorem C10_null_boxes_safe_witness :
    CustomObject.finalize [3, 4] (CustomObject.mk none (some 1)) = [3, 4] ∧
    CustomObject.trace (fun _ => SafeBox.mk 7 [8]) (CustomObject.mk none (some 1)) =
      SafeBox.trace ((fun _ => SafeBox.mk 7 [8]) 1) :=
  ⟨(C10_null_boxes_safe (fun _ => SafeBox.mk 7 [8]) [3, 4]
      (CustomObject.mk none (some 1)) 1).1 rfl,
   (C10_null_boxes_safe (fun _ => SafeBox.mk 7 [8]) [3, 4]
      (CustomObject.mk none (some 1)) 1).2.2.1 rfl rfl⟩

/-- Claim C3: for every CustomObject holding an owned companion box
and an unowned companion box, once the object becomes unreachable the
finalize hook runs exactly once (its run is logged once after the
collecting pass, and stays at once across a further pass), it deletes
the owned box from the live native allocations, and it leaves the
unowned box untouched. -/
theorem C3_finalize_once (reachable r2 : Nat → Bool) (w : GCWorld)
    (oid b1 b2 : Nat) (o : CustomObject)
    (hmem : (oid, o) ∈ w.objs)
    (hnodup : (w.objs.map Prod.fst).Nodup)
    (hdead : reachable oid = false)
    (howned : o.owned = some b1)
    (_hunowned : o.unowned = some b2)
    (hb1count : w.boxes.count b1 ≤ 1)
    (hb2mem : b2 ∈ w.boxes)
    (hb2own : ∀ q ∈ w.objs, q.2.owned ≠ some b2)
    (hlog : w.finLog.count oid = 0) :
    (collectWorld reachable w).finLog.count oid = 1 ∧
    (collectWorld r2 (collectWorld reachable w)).finLog.count oid = 1 ∧
    b1 ∉ (collectWorld reachable w).boxes ∧
    b2 ∈ (collectWorld reachable w).boxes := by
  have hdmem : (oid, o) ∈ w.objs.filter (fun po => !reachable po.1) :=
    List.mem_filter.mpr ⟨hmem, by simp [hdead]⟩
  have hcount1 :
      ((w.objs.filter (fun po => !reachable po.1)).map Prod.fst).count oid = 1 := by
    have hsub : ((w.objs.filter (fun po => !reachable po.1)).map Prod.fst).Sublist
        (w.objs.map Prod.fst) := (List.filter_sublist w.objs).map Prod.fst
    have hnd : ((w.objs.filter (fun po => !reachable po.1)).map Prod.fst).Nodup :=
      hnodup.sublist hsub
    exact List.count_eq_one_of_mem hnd (List.mem_map_of_mem Prod.fst hdmem)
  have hfirst : (collectWorld reachable w).finLog.count oid = 1 := by
    have he : (collectWorld reachable w).finLog =
        w.finLog ++ (w.objs.filter (fun po => !reachable po.1)).map Prod.fst := rfl
    rw [he, List.count_append, hlog, hcount1]
  have hnotin : oid ∉ (collectWorld reachable w).objs.map Prod.fst := by
    intro hin
    rcases List.mem_map.mp hin with ⟨q, hq, hq2⟩
    have hr := (List.mem_filter.mp hq).2
    rw [hq2, hdead] at hr
    exact Bool.noConfusion hr
  have hsecond : (collectWorld r2 (collectWorld reachable w)).finLog.count oid = 1 := by
    have hz : (((collectWorld reachable w).objs.filter
        (fun po => !r2 po.1)).map Prod.fst).count oid = 0 := by
      rw [List.count_eq_zero]
      intro hin
      apply hnotin
      rcases List.mem_map.mp hin with ⟨q, hq, hq2⟩
      exact List.mem_map.mpr ⟨q, (List.mem_filter.mp hq).1, hq2⟩
    have he : (collectWorld r2 (collectWorld reachable w)).finLog =
        (collectWorld reachable w).finLog ++
          ((collectWorld reachable w).objs.filter (fun po => !r2 po.1)).map Prod.fst := rfl
    rw [he, List.count_append, hfirst, hz]
  refine ⟨hfirst, hsecond, ?_, ?_⟩
  · exact foldl_finalize_kills (w.objs.filter (fun po => !reachable po.1)) w.boxes
      ⟨(oid, o), hdmem, howned⟩ hb1count
  · exact foldl_finalize_keeps (w.objs.filter (fun po => !reachable po.1)) w.boxes
      hb2mem (fun q hq => hb2own q (List.mem_of_mem_filter hq))

theorem C3_finalize_once_witness :
    (collectWorld (fun _ => false)
      (GCWorld.mk [(0, CustomObject.mk (some 10) (some 20))] [10, 20] [])).finLog.count 0 = 1 ∧
    (collectWorld (fun _ => false) (collectWorld (fun _ => false)
      (GCWorld.mk [(0, CustomObject.mk (some 10) (some 20))] [10, 20] []))).finLog.count 0 = 1 ∧
    10 ∉ (collectWorld (fun _ => false)
      (GCWorld.mk [(0, CustomObject.mk (some 10) (some 20))] [10, 20] [])).boxes ∧
    20 ∈ (collectWorld (fun _ => false)
      (GCWorld.mk [(0, CustomObject.mk (some 10) (some 20))] [10, 20] [])).boxes :=
  C3_finalize_once (fun _ => false) (fun _ => false)
    (GCWorld.mk [(0, CustomObject.mk (some 10) (some 20))] [10, 20] [])
    0 10 20 (CustomObject.mk (some 10) (some 20))
    (by decide) (by decide) rfl rfl rfl (by decide) (by decide) (by decide) rfl

/-- Claim C6: a PersistentRoot that has been initialized and not yet
reset keeps its referent alive (treated as reachable) across an
arbitrary number of forced collection passes; after reset(), if the
referent is unreachable from the remaining roots, it is collected on
the next pass. -/
theorem C6_persistent_root_liveness (edges : Nat → List Nat) (c : RootedCollector)
    (r n : Nat) (hobj : r ∈ c.objs) (hroot : r ∈ c.roots)
    (hunreach : r ∉ reachableSet edges ((collectIter edges c n).roots.erase r)
        ((collectIter edges c n).objs.length)) :
    r ∈ (collectIter edges c n).objs ∧
    r ∉ (collectPass edges (resetRoot r (collectIter edges c n))).objs := by
  refine ⟨mem_objs_collectIter n c hobj hroot, fun hmem => ?_⟩
  simp only [collectPass, resetRoot, List.mem_filter, decide_eq_true_eq] at hmem
  exact hunreach hmem.2

theorem C6_persistent_root_liveness_witness :
    5 ∈ (collectIter (fun _ => []) (RootedCollector.mk [5] [5]) 3).objs ∧
    5 ∉ (collectPass (fun _ => [])
        (resetRoot 5 (collectIter (fun _ => []) (RootedCollector.mk [5] [5]) 3))).objs :=
  C6_persistent_root_liveness (fun _ => []) (RootedCollector.mk [5] [5]) 5 3
    (by decide) (by decide) (by decide)

/-- Claim C7: the process-wide PersistentRoot declared before
collector startup is never registered with the collector before
`init(context, initial)` runs — along every prefix of the program's
event trace that does not contain rootInit the root is unregistered —
and `reset()` runs before collector shutdown: every prefix reaching
engineShutdown has the root already deregistered. -/
theorem C7_global_root_two_phase (k : Nat) :
    (TraceEvent.rootInit ∉ programTrace.take k →
      rootRegistered (programTrace.take k) = false) ∧
    (TraceEvent.engineShutdown ∈ programTrace.take k →
      rootRegistered (programTrace.take k) = false) := by
  rcases k with _ | _ | _ | _ | _ | k
  · decide
  · decide
  · decide
  · decide
  · decide
  · have htake : programTrace.take (k + 5) = programTrace := by
      apply List.take_of_length_le
      simp [programTrace]
    rw [htake]
    decide

theorem C7_global_root_two_phase_witness :
    rootRegistered (programTrace.take 5) = false :=
  (C7_global_root_two_phase 5).2 (by decide)

/-- Claim C8: after a relocating (moving) collection pass, every live
root still resolves to the same logical object it referred to before
the pass even though the object's address changed: the registry's
post-relocation traceAll walk rewrites each root's stored address
through the relocation map, and resolving the fixed-up address in the
relocated heap yields exactly what the old address resolved to in the
old heap. -/
theorem C8_relocation_preserves_identity (f : Nat → Nat) (heap : List (Nat × Nat))
    (roots : List Nat) (r : Nat)
    (hinj : ∀ a b, f a = f b → a = b) (hr : r ∈ roots) :
    f r ∈ fixupRoots f roots ∧
    resolveAddr (relocateHeap f heap) (f r) = resolveAddr heap r :=
  ⟨List.mem_map_of_mem f hr, resolveAddr_relocate hinj heap r⟩

theorem C8_relocation_preserves_identity_witness :
    Nat.succ 4 ∈ fixupRoots Nat.succ [4] ∧
    resolveAddr (relocateHeap Nat.succ [(4, 99)]) (Nat.succ 4) = resolveAddr [(4, 99)] 4 :=
  C8_relocation_preserves_identity Nat.succ [(4, 99)] [4] 4
    (fun a b h => Nat.succ.inj h) (by decide)
